import Mathlib

/-!
# Verification of the `zip_clone` iterator adapter

Shallow embedding of `src/lib.rs` (crate `zip_clone`). The adapter
`ZipCloneIter` wraps a peekable iterator together with an optional held
value (`cloned`). Every production operation funnels through `respond`,
which pairs a fetched element with the held value and refills the slot
with a clone only when the source still has a next element.

The wrapped `Peekable<I>` iterator is modelled as the `List α` of its
remaining elements (peek = `head?`, next = head/tail, next_back =
last/dropLast). Since Lean values are pure, a clone of `c` is `c`
itself; every operation additionally returns the number of clone calls
it performed, which is the quantity the crate's contract is about.
-/

namespace ZipClone

/-- The adapter state: `iter` is the remaining source sequence
(the `Peekable<I>` field), `cloned` the optional held value
(the `Option<C>` field of `ZipCloneIter`). -/
structure ZipCloneIter (α C : Type) where
  iter : List α
  cloned : Option C
  deriving DecidableEq

variable {α C : Type}

/-- Function `ZipCloneIter::new`: wrap the source and store the value; no clone yet. -/
def new (l : List α) (c : C) : ZipCloneIter α C :=
  ⟨l, some c⟩

/-- Method `ZipCloneIter::respond`: given the already-fetched `item`, take the held
value; if both are present, refill the slot with a clone exactly when the
source still has a peekable next element, and return the pair. The result is
`(yielded pair, new state, number of clones performed)`. Note that
`self.cloned.take()` in the Rust code empties the slot even on the
fall-through arm. -/
def respond (s : ZipCloneIter α C) (item : Option α) :
    Option (α × C) × ZipCloneIter α C × Nat :=
  match item, s.cloned with
  | some a, some c =>
    if s.iter.isEmpty then (some (a, c), ⟨s.iter, none⟩, 0)
    else (some (a, c), ⟨s.iter, some c⟩, 1)
  | _, _ => (none, ⟨s.iter, none⟩, 0)

/-- Method `Iterator::next`: fetch from the front, then `respond`. -/
def next (s : ZipCloneIter α C) : Option (α × C) × ZipCloneIter α C × Nat :=
  respond ⟨s.iter.tail, s.cloned⟩ s.iter.head?

/-- Method `DoubleEndedIterator::next_back`: fetch from the back, then `respond`. -/
def nextBack (s : ZipCloneIter α C) : Option (α × C) × ZipCloneIter α C × Nat :=
  respond ⟨s.iter.dropLast, s.cloned⟩ s.iter.getLast?

/-- Method `Iterator::nth`: `self.iter.nth(n)` consumes `min (n+1) (length)` front
elements and yields the element at index `n` when present; then `respond`. -/
def nth (s : ZipCloneIter α C) (n : Nat) : Option (α × C) × ZipCloneIter α C × Nat :=
  respond ⟨s.iter.drop (n + 1), s.cloned⟩ (s.iter.get? n)

/-- Method `DoubleEndedIterator::nth_back`: `self.iter.nth_back(n)` consumes
`min (n+1) (length)` back elements and yields the `n`-th element from the
back when present; then `respond`. -/
def nthBack (s : ZipCloneIter α C) (n : Nat) : Option (α × C) × ZipCloneIter α C × Nat :=
  respond ⟨(s.iter.reverse.drop (n + 1)).reverse, s.cloned⟩ (s.iter.reverse.get? n)

/-- Method `Iterator::count` on the wrapped source: consumes the whole iterator,
counting the elements. -/
def listCount : List α → Nat
  | [] => 0
  | _ :: rest => listCount rest + 1

/-- Method `Iterator::last` on the wrapped source: drains the iterator and returns
its final element, if any. -/
def listLast : List α → Option α
  | [] => none
  | [a] => some a
  | _ :: b :: rest => listLast (b :: rest)

/-- Method `Iterator::count` for `ZipCloneIter`: delegate to the source's `count`,
dropping the held value without cloning. Result: `(count, clones)`. -/
def count (s : ZipCloneIter α C) : Nat × Nat :=
  (listCount s.iter, 0)

/-- Method `Iterator::last` for `ZipCloneIter`: drain the source via its own `last`
and pair the final element with the taken held value; no clone is made.
Result: `(yielded pair, clones)` (the adapter is consumed by value). -/
def last (s : ZipCloneIter α C) : Option (α × C) × Nat :=
  match listLast s.iter, s.cloned with
  | some a, some c => (some (a, c), 0)
  | _, _ => (none, 0)

/-- Method `Iterator::size_hint` for `ZipCloneIter`: delegate to the source's
(exact, in the list model) size hint. -/
def size_hint (s : ZipCloneIter α C) : Nat × Option Nat :=
  (s.iter.length, some s.iter.length)

/-- Method `ExactSizeIterator::len` for `ZipCloneIter`: the lower size-hint bound. -/
def len (s : ZipCloneIter α C) : Nat :=
  (size_hint s).1

/-- The scan loop of `Iterator::find`: the tuple `(a, c)` is the candidate
pair, `rest` the source remaining behind it. While the predicate rejects,
replace the element component with the next source element (`?` bails out
with `none` when the source is exhausted, leaving the slot empty); once it
accepts, apply the refill rule and yield the tuple. -/
def findAux (p : α × C → Bool) (a : α) (c : C) (rest : List α) :
    Option (α × C) × ZipCloneIter α C × Nat :=
  if p (a, c) then
    if rest.isEmpty then (some (a, c), ⟨rest, none⟩, 0)
    else (some (a, c), ⟨rest, some c⟩, 1)
  else
    match rest with
    | [] => (none, ⟨[], none⟩, 0)
    | b :: rest2 => findAux p b c rest2

/-- Method `Iterator::find` for `ZipCloneIter`: fetch the first element and take the
held value; if both present, run the scan loop. On the fall-through arm the
front element (if any) has already been consumed and the slot emptied. -/
def find (s : ZipCloneIter α C) (p : α × C → Bool) :
    Option (α × C) × ZipCloneIter α C × Nat :=
  match s.iter, s.cloned with
  | a :: rest, some c => findAux p a c rest
  | l, _ => (none, ⟨l.tail, none⟩, 0)

/-- The scan loop of `DoubleEndedIterator::rfind`: like `findAux` but
replacement elements are taken from the back (`next_back`); the final
lookahead still peeks at the front of what remains. -/
def rfindAux (p : α × C → Bool) (a : α) (c : C) (rem : List α) :
    Option (α × C) × ZipCloneIter α C × Nat :=
  if p (a, c) then
    if rem.isEmpty then (some (a, c), ⟨rem, none⟩, 0)
    else (some (a, c), ⟨rem, some c⟩, 1)
  else
    match h : rem.getLast? with
    | none => (none, ⟨rem, none⟩, 0)
    | some b => rfindAux p b c rem.dropLast
termination_by rem.length
decreasing_by
  simp only [List.length_dropLast]
  have hne : rem ≠ [] := by
    intro hnil
    rw [hnil] at h
    simp at h
  have : 0 < rem.length := List.length_pos.mpr hne
  omega

/-- Method `DoubleEndedIterator::rfind` for `ZipCloneIter`: fetch the last element
and take the held value; if both present, run the backward scan loop. -/
def rfind (s : ZipCloneIter α C) (p : α × C → Bool) :
    Option (α × C) × ZipCloneIter α C × Nat :=
  match s.iter.getLast?, s.cloned with
  | some a, some c => rfindAux p a c s.iter.dropLast
  | _, _ => (none, ⟨s.iter.dropLast, none⟩, 0)

/-- The production operations a caller can invoke on a live (`&mut`) adapter:
forward step, backward step, bounded skips and first-match searches.
(`count` and `last` consume the adapter by value, so they cannot be followed
by further calls and are not part of this alphabet.) -/
inductive Op (α C : Type) where
  | next : Op α C
  | nextBack : Op α C
  | nth : Nat → Op α C
  | nthBack : Nat → Op α C
  | find : (α × C → Bool) → Op α C
  | rfind : (α × C → Bool) → Op α C

/-- Apply one production operation to the adapter state. -/
def applyOp (o : Op α C) (s : ZipCloneIter α C) :
    Option (α × C) × ZipCloneIter α C × Nat :=
  match o with
  | Op.next => next s
  | Op.nextBack => nextBack s
  | Op.nth n => nth s n
  | Op.nthBack n => nthBack s n
  | Op.find p => find s p
  | Op.rfind p => rfind s p

/-- Run a sequence of production operations, collecting every yielded
result. -/
def runOps (s : ZipCloneIter α C) : List (Op α C) → List (Option (α × C))
  | [] => []
  | o :: os => (applyOp o s).1 :: runOps (applyOp o s).2.1 os

/-- The states reachable from construction by production operations. -/
inductive Reachable : ZipCloneIter α C → Prop where
  | init (l : List α) (c : C) : Reachable (new l c)
  | step (o : Op α C) (s : ZipCloneIter α C) :
      Reachable s → Reachable (applyOp o s).2.1

theorem next_some_length {s : ZipCloneIter α C} {pr : α × C}
    {s2 : ZipCloneIter α C} {k : Nat} (h : next s = (some pr, s2, k)) :
    s2.iter.length + 1 = s.iter.length := by
  rcases s with ⟨l, co⟩
  cases l with
  | nil =>
    cases co <;> simp [next, respond] at h
  | cons a rest =>
    cases co with
    | none => simp [next, respond] at h
    | some c =>
      by_cases hr : rest.isEmpty
      · simp [next, respond, hr] at h
        cases rest with
        | nil => simp [← h.2.1]
        | cons b r2 => simp at hr
      · simp [next, respond, hr] at h
        simp [← h.2.1]

theorem nextBack_some_length {s : ZipCloneIter α C} {pr : α × C}
    {s2 : ZipCloneIter α C} {k : Nat} (h : nextBack s = (some pr, s2, k)) :
    s2.iter.length + 1 = s.iter.length := by
  rcases s with ⟨l, co⟩
  cases hl : l.getLast? with
  | none =>
    cases co <;> simp [nextBack, respond, hl] at h
  | some a =>
    have hne : l ≠ [] := by
      intro hnil
      rw [hnil] at hl
      simp at hl
    cases co with
    | none => simp [nextBack, respond, hl] at h
    | some c =>
      by_cases hr : l.dropLast.isEmpty
      · simp [nextBack, respond, hl, hr] at h
        have h2 : s2.iter = l.dropLast := by rw [← h.2.1]
        rw [h2, List.length_dropLast]
        show l.length - 1 + 1 = l.length
        have : 0 < l.length := List.length_pos.mpr hne
        omega
      · simp [nextBack, respond, hl, hr] at h
        have h2 : s2.iter = l.dropLast := by rw [← h.2.1]
        rw [h2, List.length_dropLast]
        show l.length - 1 + 1 = l.length
        have : 0 < l.length := List.length_pos.mpr hne
        omega

/-- Full forward traversal: call `next` repeatedly until it yields nothing,
collecting the yielded pairs and summing the clone counts. -/
def traverseF (s : ZipCloneIter α C) : List (α × C) × Nat :=
  match h : next s with
  | (none, _, _) => ([], 0)
  | (some pr, s2, k) =>
    have : s2.iter.length < s.iter.length := by
      have := next_some_length h
      omega
    let r := traverseF s2
    (pr :: r.1, k + r.2)
termination_by s.iter.length

/-- Full backward traversal: call `next_back` repeatedly until it yields
nothing, collecting the yielded pairs and summing the clone counts. -/
def traverseB (s : ZipCloneIter α C) : List (α × C) × Nat :=
  match h : nextBack s with
  | (none, _, _) => ([], 0)
  | (some pr, s2, k) =>
    have : s2.iter.length < s.iter.length := by
      have := nextBack_some_length h
      omega
    let r := traverseB s2
    (pr :: r.1, k + r.2)
termination_by s.iter.length

/-! ## Unfolding lemmas for the traversals -/

theorem traverseF_of_none {s : ZipCloneIter α C} (h : (next s).1 = none) :
    traverseF s = ([], 0) := by
  rw [traverseF]
  split
  · rfl
  · rename_i pr s2 k heq
    rw [heq] at h
    simp at h

theorem traverseF_of_some {s : ZipCloneIter α C} {pr : α × C} {s2 : ZipCloneIter α C} {k : Nat}
    (h : next s = (some pr, s2, k)) :
    traverseF s = (pr :: (traverseF s2).1, k + (traverseF s2).2) := by
  rw [traverseF]
  split
  · rename_i fst snd heq
    rw [heq] at h
    simp at h
  · rename_i pr2 s22 k2 heq
    rw [heq] at h
    obtain ⟨h1, h2, h3⟩ : some pr2 = some pr ∧ s22 = s2 ∧ k2 = k := by
      simpa [Prod.ext_iff] using h
    cases h1
    subst h2
    subst h3
    rfl

theorem traverseB_of_none {s : ZipCloneIter α C} (h : (nextBack s).1 = none) :
    traverseB s = ([], 0) := by
  rw [traverseB]
  split
  · rfl
  · rename_i pr s2 k heq
    rw [heq] at h
    simp at h

theorem traverseB_of_some {s : ZipCloneIter α C} {pr : α × C} {s2 : ZipCloneIter α C} {k : Nat}
    (h : nextBack s = (some pr, s2, k)) :
    traverseB s = (pr :: (traverseB s2).1, k + (traverseB s2).2) := by
  rw [traverseB]
  split
  · rename_i fst snd heq
    rw [heq] at h
    simp at h
  · rename_i pr2 s22 k2 heq
    rw [heq] at h
    obtain ⟨h1, h2, h3⟩ : some pr2 = some pr ∧ s22 = s2 ∧ k2 = k := by
      simpa [Prod.ext_iff] using h
    cases h1
    subst h2
    subst h3
    rfl

/-! ## Characterization of the full traversals -/

theorem traverseF_none (l : List α) :
    traverseF (⟨l, none⟩ : ZipCloneIter α C) = ([], 0) := by
  cases l <;> simp [traverseF, next, respond]

theorem traverseF_some (l : List α) (c : C) :
    traverseF ⟨l, some c⟩ = (l.map (fun a => (a, c)), l.length - 1) := by
  induction l with
  | nil => simp [traverseF, next, respond]
  | cons a rest ih =>
    cases rest with
    | nil => simp [traverseF, next, respond, traverseF_none]
    | cons b rest2 =>
      rw [traverseF]
      simp only [next, respond]
      simp only [List.tail_cons, List.head?_cons, List.isEmpty_cons]
      simp [ih]
      omega

theorem nextBack_concat (l : List α) (b : α) (c : C) :
    nextBack ⟨l ++ [b], some c⟩ =
      if l.isEmpty then (some (b, c), ⟨l, none⟩, 0)
      else (some (b, c), ⟨l, some c⟩, 1) := by
  simp only [nextBack, respond, List.getLast?_concat, List.dropLast_concat]

theorem traverseB_none (l : List α) :
    traverseB (⟨l, none⟩ : ZipCloneIter α C) = ([], 0) := by
  apply traverseB_of_none
  cases hl : l.getLast? <;> simp [nextBack, respond, hl]

theorem traverseB_some (l : List α) (c : C) :
    traverseB ⟨l, some c⟩ = (l.reverse.map (fun a => (a, c)), l.length - 1) := by
  induction l using List.reverseRecOn with
  | nil =>
    apply traverseB_of_none
    simp [nextBack, respond]
  | append_singleton l2 b ih =>
    cases l2 with
    | nil =>
      simp only [List.nil_append]
      have h := nextBack_concat [] b c
      simp at h
      rw [traverseB_of_some h, traverseB_none]
      simp
    | cons a rest =>
      simp only [List.cons_append]
      have h := nextBack_concat (a :: rest) b c
      simp at h
      rw [traverseB_of_some h, ih]
      simp
      omega

/-! ## The forward search loop -/

theorem findAux_k_le_one (p : α × C → Bool) (c : C) :
    ∀ (rest : List α) (a : α), (findAux p a c rest).2.2 ≤ 1 := by
  intro rest
  induction rest with
  | nil =>
    intro a
    by_cases hp : p (a, c) <;> simp [findAux, hp]
  | cons b rest2 ih =>
    intro a
    by_cases hp : p (a, c)
    · simp [findAux, hp]
    · simp only [findAux, hp]
      simpa using ih b

theorem findAux_k_eq_one_iff (p : α × C → Bool) (c : C) :
    ∀ (rest : List α) (a : α),
      ((findAux p a c rest).2.2 = 1 ↔
        ((findAux p a c rest).1.isSome ∧ (findAux p a c rest).2.1.iter ≠ [])) := by
  intro rest
  induction rest with
  | nil =>
    intro a
    by_cases hp : p (a, c) <;> simp [findAux, hp]
  | cons b rest2 ih =>
    intro a
    by_cases hp : p (a, c)
    · simp [findAux, hp]
    · simp only [findAux, hp]
      simpa using ih b

theorem findAux_no_match (p : α × C → Bool) (c : C) :
    ∀ (rest : List α) (a : α), (∀ x ∈ a :: rest, p (x, c) = false) →
      findAux p a c rest = (none, ⟨[], none⟩, 0) := by
  intro rest
  induction rest with
  | nil =>
    intro a h
    have hp : p (a, c) = false := h a (by simp)
    simp [findAux, hp]
  | cons b rest2 ih =>
    intro a h
    have hp : p (a, c) = false := h a (by simp)
    simp only [findAux, hp]
    simp only [Bool.false_eq_true, if_false]
    exact ih b (fun x hx => h x (by simp at hx ⊢; tauto))

theorem findAux_inv (p : α × C → Bool) (c : C) :
    ∀ (rest : List α) (a : α), (findAux p a c rest).2.1.cloned = none →
      (findAux p a c rest).2.1.iter = [] := by
  intro rest
  induction rest with
  | nil =>
    intro a
    by_cases hp : p (a, c) <;> simp [findAux, hp]
  | cons b rest2 ih =>
    intro a
    by_cases hp : p (a, c)
    · simp [findAux, hp]
    · simp only [findAux, hp]
      simpa using ih b

theorem findAux_none_cloned (p : α × C → Bool) (c : C) :
    ∀ (rest : List α) (a : α), (findAux p a c rest).1 = none →
      (findAux p a c rest).2.1.cloned = none := by
  intro rest
  induction rest with
  | nil =>
    intro a
    by_cases hp : p (a, c) <;> simp [findAux, hp]
  | cons b rest2 ih =>
    intro a
    by_cases hp : p (a, c)
    · simp [findAux, hp]
    · simp only [findAux, hp]
      simpa using ih b

/-! ## The backward search loop -/

theorem rfindAux_match {p : α × C → Bool} {a : α} {c : C} {rem : List α}
    (hp : p (a, c) = true) :
    rfindAux p a c rem =
      if rem.isEmpty then (some (a, c), ⟨rem, none⟩, 0)
      else (some (a, c), ⟨rem, some c⟩, 1) := by
  rw [rfindAux, if_pos hp]

theorem rfindAux_exhausted {p : α × C → Bool} {a : α} {c : C} {rem : List α}
    (hp : ¬ p (a, c) = true) (h : rem.getLast? = none) :
    rfindAux p a c rem = (none, ⟨rem, none⟩, 0) := by
  rw [rfindAux, if_neg hp]
  split
  · rfl
  · rename_i b2 heq
    rw [heq] at h
    cases h

theorem rfindAux_step {p : α × C → Bool} {a : α} {c : C} {rem : List α} {b : α}
    (hp : ¬ p (a, c) = true) (h : rem.getLast? = some b) :
    rfindAux p a c rem = rfindAux p b c rem.dropLast := by
  rw [rfindAux, if_neg hp]
  split
  · rename_i heq
    rw [heq] at h
    cases h
  · rename_i b2 heq
    rw [heq] at h
    cases h
    rfl

theorem rfindAux_k_le_one (p : α × C → Bool) (a : α) (c : C) (rem : List α) :
    (rfindAux p a c rem).2.2 ≤ 1 := by
  induction a, c, rem using rfindAux.induct p with
  | case1 a c rem hp hemp => simp [rfindAux_match hp, hemp]
  | case2 a c rem hp hemp => simp [rfindAux_match hp, hemp]
  | case3 a c rem hp h => simp [rfindAux_exhausted hp h]
  | case4 a c rem hp b h ih =>
    rw [rfindAux_step hp h]
    exact ih

theorem rfindAux_k_eq_one_iff (p : α × C → Bool) (a : α) (c : C) (rem : List α) :
    ((rfindAux p a c rem).2.2 = 1 ↔
      ((rfindAux p a c rem).1.isSome ∧ (rfindAux p a c rem).2.1.iter ≠ [])) := by
  induction a, c, rem using rfindAux.induct p with
  | case1 a c rem hp hemp =>
    have : rem = [] := by simpa using hemp
    subst this
    simp [rfindAux_match hp]
  | case2 a c rem hp hemp =>
    have : rem ≠ [] := by simpa using hemp
    simp [rfindAux_match hp, hemp, this]
  | case3 a c rem hp h => simp [rfindAux_exhausted hp h]
  | case4 a c rem hp b h ih =>
    rw [rfindAux_step hp h]
    exact ih

theorem rfindAux_no_match (p : α × C → Bool) (a : α) (c : C) (rem : List α) :
    (∀ x ∈ a :: rem, p (x, c) = false) →
      rfindAux p a c rem = (none, ⟨[], none⟩, 0) := by
  induction a, c, rem using rfindAux.induct p with
  | case1 a c rem hp hemp =>
    intro h
    have := h a (by simp)
    rw [hp] at this
    cases this
  | case2 a c rem hp hemp =>
    intro h
    have := h a (by simp)
    rw [hp] at this
    cases this
  | case3 a c rem hp h =>
    intro hno
    have : rem = [] := by simpa using h
    subst this
    simpa using rfindAux_exhausted hp h
  | case4 a c rem hp b h ih =>
    intro hno
    rw [rfindAux_step hp h]
    apply ih
    intro x hx
    apply hno
    simp only [List.mem_cons] at hx ⊢
    rcases hx with hx | hx
    · subst hx
      exact Or.inr (List.mem_of_getLast?_eq_some h)
    · exact Or.inr ((List.dropLast_sublist rem).mem hx)

theorem rfindAux_inv (p : α × C → Bool) (a : α) (c : C) (rem : List α) :
    (rfindAux p a c rem).2.1.cloned = none → (rfindAux p a c rem).2.1.iter = [] := by
  induction a, c, rem using rfindAux.induct p with
  | case1 a c rem hp hemp =>
    have : rem = [] := by simpa using hemp
    subst this
    simp [rfindAux_match hp]
  | case2 a c rem hp hemp => simp [rfindAux_match hp, hemp]
  | case3 a c rem hp h =>
    have : rem = [] := by simpa using h
    subst this
    simp [rfindAux_exhausted hp h]
  | case4 a c rem hp b h ih =>
    rw [rfindAux_step hp h]
    exact ih

theorem rfindAux_none_cloned (p : α × C → Bool) (a : α) (c : C) (rem : List α) :
    (rfindAux p a c rem).1 = none → (rfindAux p a c rem).2.1.cloned = none := by
  induction a, c, rem using rfindAux.induct p with
  | case1 a c rem hp hemp => simp [rfindAux_match hp, hemp]
  | case2 a c rem hp hemp => simp [rfindAux_match hp, hemp]
  | case3 a c rem hp h => simp [rfindAux_exhausted hp h]
  | case4 a c rem hp b h ih =>
    rw [rfindAux_step hp h]
    exact ih

/-! ## The one-way slot invariant and its preservation -/

theorem respond_taken {l2 : List α} (item : Option α) :
    respond (⟨l2, none⟩ : ZipCloneIter α C) item = (none, ⟨l2, none⟩, 0) := by
  cases item <;> simp [respond]

theorem respond_none_cloned {s : ZipCloneIter α C} {item : Option α}
    (h : (respond s item).1 = none) : (respond s item).2.1.cloned = none := by
  rcases s with ⟨l2, co⟩
  cases item with
  | none => simp [respond]
  | some a =>
    cases co with
    | none => simp [respond]
    | some c =>
      by_cases he : l2.isEmpty <;> simp [respond, he] at h

theorem respond_inv {l2 : List α} {co : Option C} {item : Option α}
    (hitem : item = none → l2 = []) (hco : co = none → l2 = []) :
    (respond ⟨l2, co⟩ item).2.1.cloned = none →
      (respond ⟨l2, co⟩ item).2.1.iter = [] := by
  intro hpost
  cases item with
  | none =>
    simpa [respond] using hitem rfl
  | some a =>
    cases co with
    | none => simpa [respond] using hco rfl
    | some c =>
      by_cases he : l2.isEmpty
      · have h0 : l2 = [] := by simpa using he
        simp [respond, he, h0]
      · simp [respond, he] at hpost

theorem applyOp_inv (o : Op α C) (s : ZipCloneIter α C)
    (h : s.cloned = none → s.iter = []) :
    (applyOp o s).2.1.cloned = none → (applyOp o s).2.1.iter = [] := by
  rcases s with ⟨l, co⟩
  have hco : co = none → l = [] := h
  cases o with
  | next =>
    apply respond_inv
    · intro hi
      have : l = [] := by simpa using hi
      simp [this]
    · intro hc
      simp [hco hc]
  | nextBack =>
    apply respond_inv
    · intro hi
      have : l = [] := by simpa using hi
      simp [this]
    · intro hc
      simp [hco hc]
  | nth n =>
    apply respond_inv
    · intro hi
      exact List.drop_eq_nil_of_le (le_trans (List.get?_eq_none.mp hi) (by omega))
    · intro hc
      simp [hco hc]
  | nthBack n =>
    apply respond_inv
    · intro hi
      have hlen : l.reverse.length ≤ n := List.get?_eq_none.mp hi
      have : l.reverse.drop (n + 1) = [] :=
        List.drop_eq_nil_of_le (le_trans hlen (by omega))
      simp [this]
    · intro hc
      simp [hco hc]
  | find p =>
    cases co with
    | none =>
      have hl : l = [] := hco rfl
      subst hl
      simp [applyOp, find]
    | some c =>
      cases l with
      | nil => simp [applyOp, find]
      | cons a rest =>
        simpa [applyOp, find] using findAux_inv p c rest a
  | rfind p =>
    cases co with
    | none =>
      have hl : l = [] := hco rfl
      subst hl
      simp [applyOp, rfind]
    | some c =>
      cases hl : l.getLast? with
      | none =>
        have : l = [] := by simpa using hl
        subst this
        simp at hl
        simp [applyOp, rfind]
      | some a =>
        simpa [applyOp, rfind, hl] using rfindAux_inv p a c l.dropLast

theorem applyOp_taken (o : Op α C) (s : ZipCloneIter α C)
    (h : s.cloned = none) :
    (applyOp o s).1 = none ∧ (applyOp o s).2.1.cloned = none := by
  rcases s with ⟨l, co⟩
  cases h
  cases o with
  | next => simp [applyOp, next, respond_taken]
  | nextBack => simp [applyOp, nextBack, respond_taken]
  | nth n => simp [applyOp, nth, respond_taken]
  | nthBack n => simp [applyOp, nthBack, respond_taken]
  | find p =>
    cases l <;> simp [applyOp, find]
  | rfind p =>
    cases hl : l.getLast? <;> simp [applyOp, rfind, hl]

theorem applyOp_none_cloned (o : Op α C) (s : ZipCloneIter α C)
    (h : (applyOp o s).1 = none) : (applyOp o s).2.1.cloned = none := by
  rcases s with ⟨l, co⟩
  cases o with
  | next => exact respond_none_cloned h
  | nextBack => exact respond_none_cloned h
  | nth n => exact respond_none_cloned h
  | nthBack n => exact respond_none_cloned h
  | find p =>
    cases co with
    | none => cases l <;> simp [applyOp, find]
    | some c =>
      cases l with
      | nil => simp [applyOp, find]
      | cons a rest =>
        simp only [applyOp, find] at h ⊢
        exact findAux_none_cloned p c rest a h
  | rfind p =>
    cases co with
    | none => cases hl : l.getLast? <;> simp [applyOp, rfind, hl]
    | some c =>
      cases hl : l.getLast? with
      | none => simp [applyOp, rfind, hl]
      | some a =>
        simp only [applyOp, rfind, hl] at h ⊢
        exact rfindAux_none_cloned p a c l.dropLast h

theorem runOps_taken (ops : List (Op α C)) (s : ZipCloneIter α C)
    (h : s.cloned = none) :
    runOps s ops = List.replicate ops.length none := by
  induction ops generalizing s with
  | nil => rfl
  | cons o os ih =>
    obtain ⟨h1, h2⟩ := applyOp_taken o s h
    simp [runOps, h1, ih _ h2, List.replicate_succ]

theorem listCount_eq_length (l : List α) : listCount l = l.length := by
  induction l with
  | nil => rfl
  | cons a rest ih => simp [listCount, ih]

theorem listLast_eq_getLast? : ∀ (l : List α), listLast l = l.getLast?
  | [] => rfl
  | [_] => rfl
  | a :: b :: rest => by
    rw [show listLast (a :: b :: rest) = listLast (b :: rest) from rfl]
    rw [listLast_eq_getLast? (b :: rest)]
    simp

/-! ## The claims -/

/-- Claim C1: for every source sequence of length `N ≥ 1` and every initial value,
fully traversing the adapter forward produces exactly `N` pairs, one per
source element in order (each carrying the held value), and performs exactly
`N - 1` clones in total. -/
theorem zipclone_forward_traversal (l : List α) (c : C) (h : 1 ≤ l.length) :
    (traverseF (new l c)).1 = l.map (fun a => (a, c)) ∧
    (traverseF (new l c)).1.length = l.length ∧
    (traverseF (new l c)).2 = l.length - 1 := by
  refine ⟨?_, ?_, ?_⟩ <;> simp [new, traverseF_some]

theorem zipclone_forward_traversal_witness :
    1 ≤ ([10, 20, 30] : List Nat).length ∧
    ((traverseF (new [10, 20, 30] (7 : Nat))).1 =
        [10, 20, 30].map (fun a => (a, 7)) ∧
      (traverseF (new [10, 20, 30] (7 : Nat))).1.length =
        ([10, 20, 30] : List Nat).length ∧
      (traverseF (new [10, 20, 30] (7 : Nat))).2 =
        ([10, 20, 30] : List Nat).length - 1) :=
  ⟨by decide, zipclone_forward_traversal [10, 20, 30] 7 (by decide)⟩

/-- Claim C5: `count` performs zero clones and returns exactly the number of
elements remaining in the wrapped source (it delegates to the source's
`count`, which consumes the source, and discards the held value). -/
theorem zipclone_count_spec (s : ZipCloneIter α C) :
    count s = (s.iter.length, 0) := by
  simp [count, listCount_eq_length]

/-- Claim C6: `last` performs zero clones; when the source is non-empty and the
slot holds a value it returns the source's final element paired with that
value; when the source is exhausted or the slot is empty it yields
nothing. -/
theorem zipclone_last_spec (s : ZipCloneIter α C) :
    (last s).2 = 0 ∧
    (∀ a c, s.iter.getLast? = some a → s.cloned = some c →
      (last s).1 = some (a, c)) ∧
    (s.iter = [] ∨ s.cloned = none → (last s).1 = none) := by
  rcases s with ⟨l, co⟩
  refine ⟨?_, ?_, ?_⟩
  · cases h1 : listLast l <;> cases co <;> simp [last, h1]
  · intro a c ha hc
    simp only at ha hc
    subst hc
    simp [last, listLast_eq_getLast?, ha]
  · intro h
    rcases h with h | h
    · subst h
      cases co <;> simp [last, listLast]
    · simp only at h
      subst h
      cases h1 : listLast l <;> simp [last, h1]

theorem zipclone_last_spec_witness :
    (last (⟨[1, 2], some 5⟩ : ZipCloneIter Nat Nat)).1 = some (2, 5) :=
  (zipclone_last_spec ⟨[1, 2], some 5⟩).2.1 2 5 (by decide) (by decide)

/-- Claim C7: backward single-step production obtains the back element and applies
the same refill rule (`respond`), whose lookahead peeks at the front of the
remaining source; a full backward traversal of `N ≥ 1` elements yields the
elements in reverse order and performs exactly `N - 1` clones. -/
theorem zipclone_backward_traversal (s : ZipCloneIter α C) (l : List α)
    (c : C) (h : 1 ≤ l.length) :
    nextBack s = respond ⟨s.iter.dropLast, s.cloned⟩ s.iter.getLast? ∧
    (traverseB (new l c)).1 = l.reverse.map (fun a => (a, c)) ∧
    (traverseB (new l c)).2 = l.length - 1 := by
  refine ⟨rfl, ?_, ?_⟩ <;> simp [new, traverseB_some]

theorem zipclone_backward_traversal_witness :
    1 ≤ ([4, 5, 6] : List Nat).length ∧
    (nextBack (⟨[9], some 1⟩ : ZipCloneIter Nat Nat) =
        respond ⟨([9] : List Nat).dropLast, some 1⟩ ([9] : List Nat).getLast? ∧
      (traverseB (new [4, 5, 6] (2 : Nat))).1 =
        [4, 5, 6].reverse.map (fun a => (a, 2)) ∧
      (traverseB (new [4, 5, 6] (2 : Nat))).2 =
        ([4, 5, 6] : List Nat).length - 1) :=
  ⟨by decide, zipclone_backward_traversal ⟨[9], some 1⟩ [4, 5, 6] 2 (by decide)⟩

/-- Claim C8: when at least `n + 1` elements remain, `nth n` consumes exactly the
`n` skipped front elements plus the produced one (remaining source is
`drop (n+1)`), yields the element at index `n` paired with the held value,
and clones only for that one pair (so at most once, and exactly once iff
elements remain afterwards); `nth_back n` does the same from the back. -/
theorem zipclone_bounded_skip (l : List α) (c : C) (n : Nat)
    (h : n + 1 ≤ l.length) :
    (nth ⟨l, some c⟩ n).1 = (l.get? n).map (fun a => (a, c)) ∧
    (l.get? n).isSome ∧
    (nth ⟨l, some c⟩ n).2.1.iter = l.drop (n + 1) ∧
    (nth ⟨l, some c⟩ n).2.2 = (if (l.drop (n + 1)).isEmpty then 0 else 1) ∧
    (nth ⟨l, some c⟩ n).2.2 ≤ 1 ∧
    (nthBack ⟨l, some c⟩ n).1 = (l.reverse.get? n).map (fun a => (a, c)) ∧
    (l.reverse.get? n).isSome ∧
    (nthBack ⟨l, some c⟩ n).2.1.iter = (l.reverse.drop (n + 1)).reverse ∧
    (nthBack ⟨l, some c⟩ n).2.2 =
      (if ((l.reverse.drop (n + 1)).reverse).isEmpty then 0 else 1) ∧
    (nthBack ⟨l, some c⟩ n).2.2 ≤ 1 := by
  have hn : n < l.length := by omega
  have hrn : n < l.reverse.length := by simpa using hn
  rcases hg : l.get? n with _ | a
  · exact absurd (List.get?_eq_none.mp hg) (by omega)
  rcases hgr : l.reverse.get? n with _ | b
  · have := List.get?_eq_none.mp hgr
    simp at this
    omega
  have hg2 : l[n]? = some a := by
    rw [← List.get?_eq_getElem?]
    exact hg
  have hgr2 : l.reverse[n]? = some b := by
    rw [← List.get?_eq_getElem?]
    exact hgr
  by_cases hd : (l.drop (n + 1)).isEmpty <;>
    by_cases hdr : ((l.reverse.drop (n + 1)).reverse).isEmpty <;>
      refine ⟨?_, ?_, ?_, ?_, ?_, ?_, ?_, ?_, ?_, ?_⟩ <;>
        simp [nth, nthBack, respond, hg, hg2, hgr, hgr2, hd, hdr]

theorem zipclone_bounded_skip_witness :
    1 + 1 ≤ ([3, 4, 5] : List Nat).length ∧
    (nth (⟨[3, 4, 5], some 9⟩ : ZipCloneIter Nat Nat) 1).1 = some (4, 9) ∧
    (nthBack (⟨[3, 4, 5], some 9⟩ : ZipCloneIter Nat Nat) 1).1 = some (4, 9) := by
  have h := zipclone_bounded_skip [3, 4, 5] (9 : Nat) 1 (by decide)
  refine ⟨by decide, ?_, ?_⟩
  · rw [h.1]
    decide
  · rw [h.2.2.2.2.2.1]
    decide

/-- Claim C10: when only `m ≤ n` elements remain, both `nth n` and `nth_back n`
yield nothing, perform zero clones, consume all remaining source elements
and leave the slot permanently empty (the terminal state), whatever the
slot held before. -/
theorem zipclone_skip_exhaust (l : List α) (co : Option C) (n : Nat)
    (h : l.length ≤ n) :
    nth ⟨l, co⟩ n = (none, ⟨[], none⟩, 0) ∧
    nthBack ⟨l, co⟩ n = (none, ⟨[], none⟩, 0) := by
  have hg : l[n]? = none := by
    rw [← List.get?_eq_getElem?]
    exact List.get?_eq_none.mpr h
  have hgr : l.reverse[n]? = none := by
    rw [← List.get?_eq_getElem?]
    exact List.get?_eq_none.mpr (by simpa using h)
  have hd : l.drop (n + 1) = [] := List.drop_eq_nil_of_le (by omega)
  have hdr : l.reverse.drop (n + 1) = [] :=
    List.drop_eq_nil_of_le (by simp; omega)
  cases co <;> simp [nth, nthBack, respond, hg, hgr, hd, hdr]

theorem zipclone_skip_exhaust_witness :
    ([1, 2] : List Nat).length ≤ 2 ∧
    (nth (⟨[1, 2], some 4⟩ : ZipCloneIter Nat Nat) 2 =
        (none, ⟨[], none⟩, 0) ∧
      nthBack (⟨[1, 2], some 4⟩ : ZipCloneIter Nat Nat) 2 =
        (none, ⟨[], none⟩, 0)) :=
  ⟨by decide, zipclone_skip_exhaust [1, 2] (some 4) 2 (by decide)⟩

theorem find_k_le_one (l : List α) (c : C) (p : α × C → Bool) :
    (find (new l c) p).2.2 ≤ 1 := by
  cases l with
  | nil => simp [new, find]
  | cons a rest => simpa [new, find] using findAux_k_le_one p c rest a

theorem find_k_eq_one_iff (l : List α) (c : C) (p : α × C → Bool) :
    ((find (new l c) p).2.2 = 1 ↔
      ((find (new l c) p).1.isSome ∧ (find (new l c) p).2.1.iter ≠ [])) := by
  cases l with
  | nil => simp [new, find]
  | cons a rest => simpa [new, find] using findAux_k_eq_one_iff p c rest a

theorem find_no_match (l : List α) (c : C) (p : α × C → Bool)
    (h : ∀ x ∈ l, p (x, c) = false) :
    find (new l c) p = (none, ⟨[], none⟩, 0) := by
  cases l with
  | nil => simp [new, find]
  | cons a rest =>
    simpa [new, find] using findAux_no_match p c rest a h

theorem rfind_k_le_one (l : List α) (c : C) (p : α × C → Bool) :
    (rfind (new l c) p).2.2 ≤ 1 := by
  cases hl : l.getLast? with
  | none =>
    have : l = [] := by simpa using hl
    subst this
    simp [new, rfind]
  | some b =>
    simpa [new, rfind, hl] using rfindAux_k_le_one p b c l.dropLast

theorem rfind_k_eq_one_iff (l : List α) (c : C) (p : α × C → Bool) :
    ((rfind (new l c) p).2.2 = 1 ↔
      ((rfind (new l c) p).1.isSome ∧ (rfind (new l c) p).2.1.iter ≠ [])) := by
  cases hl : l.getLast? with
  | none =>
    have : l = [] := by simpa using hl
    subst this
    simp [new, rfind]
  | some b =>
    simpa [new, rfind, hl] using rfindAux_k_eq_one_iff p b c l.dropLast

theorem rfind_no_match (l : List α) (c : C) (p : α × C → Bool)
    (h : ∀ x ∈ l, p (x, c) = false) :
    rfind (new l c) p = (none, ⟨[], none⟩, 0) := by
  cases hl : l.getLast? with
  | none =>
    have : l = [] := by simpa using hl
    subst this
    simp [new, rfind]
  | some b =>
    have hstep : rfind (new l c) p = rfindAux p b c l.dropLast := by
      simp [new, rfind, hl]
    rw [hstep]
    apply rfindAux_no_match
    intro x hx
    simp only [List.mem_cons] at hx
    rcases hx with hx | hx
    · subst hx
      exact h x (List.mem_of_getLast?_eq_some hl)
    · exact h x ((List.dropLast_sublist l).mem hx)

/-- Claim C2: for every source sequence and predicate, forward `find` and backward
`rfind` clone at most once; exactly once iff a match was produced and source
elements remain afterwards; zero clones when the match leaves nothing
behind; and when no element satisfies the predicate the search yields
nothing, clones nothing and leaves the held slot empty. -/
theorem zipclone_search_clone_bound (l : List α) (c : C) (p : α × C → Bool) :
    ((find (new l c) p).2.2 ≤ 1) ∧
    ((find (new l c) p).2.2 = 1 ↔
      ((find (new l c) p).1.isSome ∧ (find (new l c) p).2.1.iter ≠ [])) ∧
    (((find (new l c) p).1.isSome ∧ (find (new l c) p).2.1.iter = []) →
      (find (new l c) p).2.2 = 0) ∧
    ((∀ x ∈ l, p (x, c) = false) →
      (find (new l c) p).1 = none ∧ (find (new l c) p).2.2 = 0 ∧
        (find (new l c) p).2.1.cloned = none) ∧
    ((rfind (new l c) p).2.2 ≤ 1) ∧
    ((rfind (new l c) p).2.2 = 1 ↔
      ((rfind (new l c) p).1.isSome ∧ (rfind (new l c) p).2.1.iter ≠ [])) ∧
    (((rfind (new l c) p).1.isSome ∧ (rfind (new l c) p).2.1.iter = []) →
      (rfind (new l c) p).2.2 = 0) ∧
    ((∀ x ∈ l, p (x, c) = false) →
      (rfind (new l c) p).1 = none ∧ (rfind (new l c) p).2.2 = 0 ∧
        (rfind (new l c) p).2.1.cloned = none) := by
  refine ⟨find_k_le_one l c p, find_k_eq_one_iff l c p, ?_, ?_,
    rfind_k_le_one l c p, rfind_k_eq_one_iff l c p, ?_, ?_⟩
  · rintro ⟨hs, hi⟩
    have h1 := find_k_le_one l c p
    have h2 : ¬ (find (new l c) p).2.2 = 1 := by
      intro hk
      exact ((find_k_eq_one_iff l c p).mp hk).2 hi
    omega
  · intro h
    rw [find_no_match l c p h]
    exact ⟨rfl, rfl, rfl⟩
  · rintro ⟨hs, hi⟩
    have h1 := rfind_k_le_one l c p
    have h2 : ¬ (rfind (new l c) p).2.2 = 1 := by
      intro hk
      exact ((rfind_k_eq_one_iff l c p).mp hk).2 hi
    omega
  · intro h
    rw [rfind_no_match l c p h]
    exact ⟨rfl, rfl, rfl⟩

theorem zipclone_search_clone_bound_witness :
    (find (new [1, 2, 3] (0 : Nat)) (fun t => t.1 == 2)).2.2 ≤ 1 ∧
    (rfind (new [1, 2, 3] (0 : Nat)) (fun t => t.1 == 2)).2.2 ≤ 1 ∧
    (find (new [1, 2, 3] (0 : Nat)) (fun t => t.1 == 9)).1 = none :=
  ⟨(zipclone_search_clone_bound [1, 2, 3] 0 (fun t => t.1 == 2)).1,
   (zipclone_search_clone_bound [1, 2, 3] 0 (fun t => t.1 == 2)).2.2.2.2.1,
   ((zipclone_search_clone_bound [1, 2, 3] 0
      (fun t => t.1 == 9)).2.2.2.1 (by decide)).1⟩

/-- Claim C3: once a production operation yields nothing, the held slot is empty
and every subsequent sequence of production operations yields nothing at
each step — the adapter is in a stable terminal state. -/
theorem zipclone_terminal_stable (o : Op α C) (s : ZipCloneIter α C)
    (h : (applyOp o s).1 = none) (ops : List (Op α C)) :
    runOps (applyOp o s).2.1 ops = List.replicate ops.length none :=
  runOps_taken ops _ (applyOp_none_cloned o s h)

theorem zipclone_terminal_stable_witness :
    (applyOp Op.next (⟨[], some 0⟩ : ZipCloneIter Nat Nat)).1 = none ∧
    runOps (applyOp Op.next (⟨[], some 0⟩ : ZipCloneIter Nat Nat)).2.1
        [Op.next, Op.nextBack, Op.nth 2, Op.nthBack 0] =
      List.replicate 4 none :=
  ⟨by decide,
   zipclone_terminal_stable Op.next ⟨[], some 0⟩ (by decide)
     [Op.next, Op.nextBack, Op.nth 2, Op.nthBack 0]⟩

theorem reachable_inv (s : ZipCloneIter α C) (h : Reachable s) :
    s.cloned = none → s.iter = [] := by
  induction h with
  | init l c =>
    intro h2
    simp [new] at h2
  | step o t ht ih => exact applyOp_inv o t ih

/-- Claim C4: in every reachable state the held slot is empty only once the
source has been observed exhausted (empty slot implies empty source), and
the transition is one-way: no operation refills an empty slot. -/
theorem zipclone_slot_invariant (s : ZipCloneIter α C) (o : Op α C)
    (h : Reachable s) :
    (s.cloned = none → s.iter = []) ∧
    (s.cloned = none → (applyOp o s).2.1.cloned = none) :=
  ⟨reachable_inv s h, fun hc => (applyOp_taken o s hc).2⟩

theorem zipclone_slot_invariant_witness :
    ((new [1, 2] (5 : Nat)).cloned = none → (new [1, 2] (5 : Nat)).iter = []) ∧
    ((new [1, 2] (5 : Nat)).cloned = none →
      (applyOp Op.next (new [1, 2] (5 : Nat))).2.1.cloned = none) :=
  zipclone_slot_invariant (new [1, 2] 5) Op.next (Reachable.init [1, 2] 5)

/-- Claim C9: in every reachable state the adapter's size report equals the
source's exact remaining count, and that count is exactly the number of
pairs a full forward traversal still produces. -/
theorem zipclone_size_report (s : ZipCloneIter α C) (h : Reachable s) :
    size_hint s = (s.iter.length, some s.iter.length) ∧
    len s = s.iter.length ∧
    (traverseF s).1.length = len s := by
  refine ⟨rfl, rfl, ?_⟩
  rcases s with ⟨l, co⟩
  cases co with
  | none =>
    have : l = [] := reachable_inv _ h rfl
    subst this
    simp [traverseF_none, len, size_hint]
  | some c => simp [traverseF_some, len, size_hint]

theorem zipclone_size_report_witness :
    size_hint (new [1, 2, 3] (0 : Nat)) =
      ((new [1, 2, 3] (0 : Nat)).iter.length,
        some (new [1, 2, 3] (0 : Nat)).iter.length) ∧
    len (new [1, 2, 3] (0 : Nat)) = (new [1, 2, 3] (0 : Nat)).iter.length ∧
    (traverseF (new [1, 2, 3] (0 : Nat))).1.length = len (new [1, 2, 3] (0 : Nat)) :=
  zipclone_size_report (new [1, 2, 3] 0) (Reachable.init [1, 2, 3] 0)

end ZipClone
